import Mathlib

set_option linter.unusedSectionVars false
set_option linter.unusedVariables false

/-!
Shallow embedding of the wavetable synthesizer in `src/main.rs`.

The oscillator state mirrors the Rust struct `WaveTableOscillator` field by
field.  `f32` values are modelled as elements of a linear ordered field `K`
with a floor function (instantiated at `ℚ` and `ℝ` below); `f32` arithmetic
is modelled as exact field arithmetic.  The shared handle
`frequency: Arc<Mutex<f32>>` is modelled by the `frequency` field together
with `set_frequency` (a write through a clone of the handle); locking the
mutex always succeeds in the model, matching the `if let Ok(..)` paths of the
source, which silently skip the update only on mutex poisoning.

Rust's panicking slice indexing `self.wave_table[i]` is modelled by the
`Option`-valued `l[i]?`: `lerp` and hence `get_sample` return `none` exactly
when the source would panic with an out-of-bounds index.

Rust's `as usize` cast on an `f32` truncates toward zero and saturates at 0
for negative inputs, which on every (finite) value agrees with
`(Int.floor x).toNat`.  Rust's `%` on `f32` is `x - y * trunc (x / y)`
(remainder with the sign of the dividend), modelled by `rustRem` below.
-/

/-- State of `WaveTableOscillator` (src/main.rs, lines 11-17): sample rate,
wave table, fractional read index, per-sample index increment, and the value
currently stored in the shared `Arc<Mutex<f32>>` frequency handle. -/
structure WaveTableOscillator (K : Type) where
  sample_rate : ℕ
  wave_table : List K
  index : K
  index_increment : K
  frequency : K

section Defs

variable {K : Type} [LinearOrderedField K] [FloorRing K]

/-- `WaveTableOscillator::new` (src/main.rs, lines 20-28): index and index
increment start at `0.0`, and the shared frequency handle is created holding
`0.0`. -/
def WaveTableOscillator.new (sample_rate : ℕ) (wave_table : List K) :
    WaveTableOscillator K :=
  { sample_rate := sample_rate
    wave_table := wave_table
    index := 0
    index_increment := 0
    frequency := 0 }

/-- A write through the shared frequency handle (the input thread's
`*freq = frequency` in src/main.rs, lines 225-232, acting on the clone
returned by `get_frequency_control`). -/
def set_frequency (f : K) (o : WaveTableOscillator K) : WaveTableOscillator K :=
  { o with frequency := f }

/-- `WaveTableOscillator::update_frequency` (src/main.rs, lines 34-38):
`self.index_increment = *freq * self.wave_table.len() as f32 / self.sample_rate as f32`. -/
def update_frequency (o : WaveTableOscillator K) : WaveTableOscillator K :=
  { o with
    index_increment :=
      o.frequency * (o.wave_table.length : K) / (o.sample_rate : K) }

/-- Truncation toward zero, the rounding used by Rust's `trunc` and by the
float remainder operator. -/
def rustTrunc (x : K) : ℤ :=
  if 0 ≤ x then ⌊x⌋ else ⌈x⌉

/-- Rust's `%` on floats: `x - y * trunc (x / y)`, a remainder carrying the
sign of the dividend (used by `self.index %= self.wave_table.len() as f32`,
src/main.rs, line 49). -/
def rustRem (x y : K) : K :=
  x - y * (rustTrunc (x / y) : K)

/-- `WaveTableOscillator::lerp` (src/main.rs, lines 53-62).  `self.index as
usize` is `(⌊index⌋).toNat` (truncation toward zero, saturating at 0), and the
two slice indexings are modelled with `l[i]?`, yielding `none` where the
source would panic. -/
def lerp (o : WaveTableOscillator K) : Option K :=
  let truncated_index : ℕ := (⌊o.index⌋).toNat
  let next_index : ℕ := (truncated_index + 1) % o.wave_table.length
  let next_index_weight : K := o.index - (truncated_index : K)
  let truncated_index_weight : K := 1 - next_index_weight
  match o.wave_table[truncated_index]?, o.wave_table[next_index]? with
  | some a, some b => some (truncated_index_weight * a + next_index_weight * b)
  | _, _ => none

/-- `WaveTableOscillator::get_sample` (src/main.rs, lines 40-51): recompute
the increment from the shared frequency, return `0.0` immediately when the
increment is `0.0`, otherwise interpolate at the current index, advance the
index by the increment, wrap it with `%`, and return the sample attenuated
by `0.3`. -/
def get_sample (o : WaveTableOscillator K) :
    Option (K × WaveTableOscillator K) :=
  let o1 := update_frequency o
  if o1.index_increment = 0 then
    some (0, o1)
  else
    match lerp o1 with
    | none => none
    | some sample =>
        some (sample * 0.3,
          { o1 with
            index := rustRem (o1.index + o1.index_increment)
              (o1.wave_table.length : K) })

/-- Repeated `get_sample` calls with no intervening write to the frequency
handle (the audio thread pulling samples while the input thread is idle).
Returns the produced samples and the final state, or `none` if some call
would panic. -/
def runSamples (o : WaveTableOscillator K) :
    ℕ → Option (List K × WaveTableOscillator K)
  | 0 => some ([], o)
  | n + 1 =>
    match get_sample o with
    | none => none
    | some (s, o1) =>
      match runSamples o1 n with
      | none => none
      | some (ss, o2) => some (s :: ss, o2)

/-- One `get_sample` call per scheduled frequency value: `f` is the value the
handle holds when the call locks the mutex.  Since the handle is
last-write-wins with no queuing, every interleaving of handle writes with
sample pulls is described by such a schedule. -/
def runSchedule (o : WaveTableOscillator K) :
    List K → Option (List K × WaveTableOscillator K)
  | [] => some ([], o)
  | f :: fs =>
    match get_sample (set_frequency f o) with
    | none => none
    | some (s, o1) =>
      match runSchedule o1 fs with
      | none => none
      | some (ss, o2) => some (s :: ss, o2)

end Defs

/-- `wave_table_size` in `main` (src/main.rs, line 92). -/
def wave_table_size : ℕ := 64

/-- The sine wave table built by the loop in `main` (src/main.rs, lines
96-98): `(2.0 * PI * i as f32 / wave_table_size as f32).sin()` pushed for
`i` in `0..wave_table_size`. -/
noncomputable def sineWaveTable : List ℝ :=
  (List.range wave_table_size).map fun i : ℕ =>
    Real.sin (2 * Real.pi * (i : ℝ) / (wave_table_size : ℝ))

/-- The fallback frequency for an unmapped key (src/main.rs, line 231):
`200.0 + (std::ptr::addr_of!(key) as usize % 1000) as f32`, as a function of
the machine address of `key`. -/
def fallback_frequency (key_addr : ℕ) : ℚ :=
  200.0 + ((key_addr % 1000 : ℕ) : ℚ)

section Lemmas
variable {K : Type} [LinearOrderedField K] [FloorRing K]

theorem rustRem_nonneg {x y : K} (hy : 0 < y) (hx : 0 ≤ x) : 0 ≤ rustRem x y := by
  have hdiv : (0 : K) ≤ x / y := div_nonneg hx hy.le
  have h1 : ((⌊x / y⌋ : K)) ≤ x / y := Int.floor_le _
  have hxy : x / y * y = x := div_mul_cancel₀ x hy.ne'
  rw [rustRem, rustTrunc, if_pos hdiv]
  nlinarith

theorem rustRem_lt {x y : K} (hy : 0 < y) : rustRem x y < y := by
  have hxy : x / y * y = x := div_mul_cancel₀ x hy.ne'
  rw [rustRem, rustTrunc]
  rcases le_or_lt 0 (x / y) with hdiv | hdiv
  · rw [if_pos hdiv]
    have h2 : x / y < ⌊x / y⌋ + 1 := Int.lt_floor_add_one _
    nlinarith
  · rw [if_neg (not_le.2 hdiv)]
    have h2 : x / y ≤ ⌈x / y⌉ := Int.le_ceil _
    nlinarith

theorem neg_lt_rustRem {x y : K} (hy : 0 < y) : -y < rustRem x y := by
  have hxy : x / y * y = x := div_mul_cancel₀ x hy.ne'
  rw [rustRem, rustTrunc]
  rcases le_or_lt 0 (x / y) with hdiv | hdiv
  · rw [if_pos hdiv]
    have h1 : ((⌊x / y⌋ : K)) ≤ x / y := Int.floor_le _
    nlinarith
  · rw [if_neg (not_le.2 hdiv)]
    have h2 : ((⌈x / y⌉ : K)) < x / y + 1 := Int.ceil_lt_add_one _
    nlinarith

theorem truncIndex_lt {x : K} {n : ℕ} (hn : 0 < n) (hx : x < (n : K)) :
    (⌊x⌋).toNat < n := by
  rcases le_or_lt 0 ⌊x⌋ with h | h
  · have h2 : ⌊x⌋ < (n : ℤ) := Int.floor_lt.2 (by exact_mod_cast hx)
    omega
  · have h2 : (⌊x⌋).toNat = 0 := Int.toNat_of_nonpos h.le
    omega

theorem lerp_eq (o : WaveTableOscillator K) (hlen : 0 < o.wave_table.length)
    (hidx : o.index < (o.wave_table.length : K)) :
    lerp o = some ((1 - (o.index - (((⌊o.index⌋).toNat : ℕ) : K)))
        * o.wave_table.getD (⌊o.index⌋).toNat 0
      + (o.index - (((⌊o.index⌋).toNat : ℕ) : K))
        * o.wave_table.getD (((⌊o.index⌋).toNat + 1) % o.wave_table.length) 0) := by
  have h1 : (⌊o.index⌋).toNat < o.wave_table.length := truncIndex_lt hlen hidx
  have h2 : ((⌊o.index⌋).toNat + 1) % o.wave_table.length < o.wave_table.length :=
    Nat.mod_lt _ hlen
  simp only [lerp, List.getElem?_eq_getElem h1, List.getElem?_eq_getElem h2,
    List.getD_eq_getElem?_getD, Option.getD_some]

end Lemmas

section StepLemmas
variable {K : Type} [LinearOrderedField K] [FloorRing K]

theorem update_frequency_index_increment (o : WaveTableOscillator K) :
    (update_frequency o).index_increment
      = o.frequency * (o.wave_table.length : K) / (o.sample_rate : K) := rfl

theorem update_frequency_index (o : WaveTableOscillator K) :
    (update_frequency o).index = o.index := rfl

theorem update_frequency_wave_table (o : WaveTableOscillator K) :
    (update_frequency o).wave_table = o.wave_table := rfl

theorem update_frequency_sample_rate (o : WaveTableOscillator K) :
    (update_frequency o).sample_rate = o.sample_rate := rfl

theorem update_frequency_frequency (o : WaveTableOscillator K) :
    (update_frequency o).frequency = o.frequency := rfl

theorem set_frequency_index (f : K) (o : WaveTableOscillator K) :
    (set_frequency f o).index = o.index := rfl

theorem set_frequency_wave_table (f : K) (o : WaveTableOscillator K) :
    (set_frequency f o).wave_table = o.wave_table := rfl

theorem set_frequency_sample_rate (f : K) (o : WaveTableOscillator K) :
    (set_frequency f o).sample_rate = o.sample_rate := rfl

theorem set_frequency_frequency (f : K) (o : WaveTableOscillator K) :
    (set_frequency f o).frequency = f := rfl

theorem get_sample_of_zero (o : WaveTableOscillator K)
    (h : o.frequency * (o.wave_table.length : K) / (o.sample_rate : K) = 0) :
    get_sample o = some (0, update_frequency o) := by
  simp only [get_sample, update_frequency_index_increment, h, if_pos]

theorem get_sample_of_ne (o : WaveTableOscillator K)
    (h : o.frequency * (o.wave_table.length : K) / (o.sample_rate : K) ≠ 0)
    (hlen : 0 < o.wave_table.length)
    (hidx : o.index < (o.wave_table.length : K)) :
    get_sample o = some
      (((1 - (o.index - (((⌊o.index⌋).toNat : ℕ) : K)))
          * o.wave_table.getD (⌊o.index⌋).toNat 0
        + (o.index - (((⌊o.index⌋).toNat : ℕ) : K))
          * o.wave_table.getD (((⌊o.index⌋).toNat + 1) % o.wave_table.length) 0)
        * 0.3,
       { o with
         index_increment :=
           o.frequency * (o.wave_table.length : K) / (o.sample_rate : K),
         index := rustRem
           (o.index + o.frequency * (o.wave_table.length : K) / (o.sample_rate : K))
           (o.wave_table.length : K) }) := by
  have hup : lerp (update_frequency o) = lerp o := rfl
  have hl := lerp_eq o hlen hidx
  simp only [get_sample, update_frequency_index_increment, update_frequency_index,
    update_frequency_wave_table, if_neg h, hup, hl]
  rfl

end StepLemmas

section RunLemmas
variable {K : Type} [LinearOrderedField K] [FloorRing K]

theorem get_sample_step (o : WaveTableOscillator K) (hlen : 0 < o.wave_table.length)
    (hlow : -(o.wave_table.length : K) < o.index)
    (hidx : o.index < (o.wave_table.length : K)) :
    ∃ s o', get_sample o = some (s, o')
      ∧ o'.sample_rate = o.sample_rate ∧ o'.wave_table = o.wave_table
      ∧ o'.frequency = o.frequency
      ∧ -(o.wave_table.length : K) < o'.index ∧ o'.index < (o.wave_table.length : K)
      ∧ (0 ≤ o.index → 0 ≤ o.frequency → 0 ≤ o'.index)
      ∧ (0 ≤ o.index → (∀ x ∈ o.wave_table, |x| ≤ 1) → |s| ≤ 0.3) := by
  have hlenK : (0 : K) < (o.wave_table.length : K) := by exact_mod_cast hlen
  by_cases h : o.frequency * (o.wave_table.length : K) / (o.sample_rate : K) = 0
  · refine ⟨0, update_frequency o, get_sample_of_zero o h, rfl, rfl, rfl, ?_, ?_, ?_, ?_⟩
    · simpa [update_frequency_index] using hlow
    · simpa [update_frequency_index] using hidx
    · intro h1 _
      simpa [update_frequency_index] using h1
    · intro _ _
      rw [abs_zero]
      norm_num
  · refine ⟨_, _, get_sample_of_ne o h hlen hidx, rfl, rfl, rfl,
      neg_lt_rustRem hlenK, rustRem_lt hlenK, ?_, ?_⟩
    · intro hi hf
      refine rustRem_nonneg hlenK ?_
      have hq : 0 ≤ o.frequency * (o.wave_table.length : K) / (o.sample_rate : K) :=
        div_nonneg (mul_nonneg hf hlenK.le) (Nat.cast_nonneg _)
      show (0 : K) ≤ o.index + _
      linarith
    · intro hi htbl
      have hfl : (((⌊o.index⌋).toNat : ℕ) : K) = ((⌊o.index⌋ : ℤ) : K) := by
        exact_mod_cast congrArg (fun z : ℤ => (z : K))
          (Int.toNat_of_nonneg (Int.floor_nonneg.2 hi))
      have hf0 : 0 ≤ o.index - (((⌊o.index⌋).toNat : ℕ) : K) := by
        rw [hfl]
        have := Int.floor_le o.index
        linarith
      have hf1 : o.index - (((⌊o.index⌋).toNat : ℕ) : K) < 1 := by
        rw [hfl]
        have := Int.lt_floor_add_one o.index
        linarith
      have hai : (⌊o.index⌋).toNat < o.wave_table.length := truncIndex_lt hlen hidx
      have hbi : ((⌊o.index⌋).toNat + 1) % o.wave_table.length < o.wave_table.length :=
        Nat.mod_lt _ hlen
      have ha : |o.wave_table.getD (⌊o.index⌋).toNat 0| ≤ 1 := by
        rw [List.getD_eq_getElem?_getD, List.getElem?_eq_getElem hai, Option.getD_some]
        exact htbl _ (List.getElem_mem hai)
      have hb : |o.wave_table.getD (((⌊o.index⌋).toNat + 1) % o.wave_table.length) 0| ≤ 1 := by
        rw [List.getD_eq_getElem?_getD, List.getElem?_eq_getElem hbi, Option.getD_some]
        exact htbl _ (List.getElem_mem hbi)
      set frac : K := o.index - (((⌊o.index⌋).toNat : ℕ) : K) with hfracdef
      set a : K := o.wave_table.getD (⌊o.index⌋).toNat 0 with hadef
      set b : K := o.wave_table.getD (((⌊o.index⌋).toNat + 1) % o.wave_table.length) 0 with hbdef
      have hv : |(1 - frac) * a + frac * b| ≤ 1 := by
        calc |(1 - frac) * a + frac * b| ≤ |(1 - frac) * a| + |frac * b| := abs_add _ _
          _ = (1 - frac) * |a| + frac * |b| := by
              rw [abs_mul, abs_mul, abs_of_nonneg (by linarith : (0:K) ≤ 1 - frac),
                abs_of_nonneg hf0]
          _ ≤ (1 - frac) * 1 + frac * 1 := by
              have h1 : (0:K) ≤ 1 - frac := by linarith
              have h2 := abs_nonneg a
              have h3 := abs_nonneg b
              nlinarith
          _ = 1 := by ring
      have h03 : |(0.3 : K)| = 0.3 := abs_of_nonneg (by norm_num)
      calc |((1 - frac) * a + frac * b) * 0.3|
          = |(1 - frac) * a + frac * b| * |(0.3 : K)| := abs_mul _ _
        _ ≤ 1 * |(0.3 : K)| := by
            have := abs_nonneg ((0.3 : K))
            nlinarith
        _ = (0.3 : K) := by rw [one_mul, h03]

theorem runSchedule_inv (fs : List K) (o : WaveTableOscillator K)
    (hlen : 0 < o.wave_table.length)
    (hlow : -(o.wave_table.length : K) < o.index)
    (hup : o.index < (o.wave_table.length : K)) :
    ∃ out o', runSchedule o fs = some (out, o')
      ∧ o'.wave_table = o.wave_table ∧ o'.sample_rate = o.sample_rate
      ∧ -(o.wave_table.length : K) < o'.index ∧ o'.index < (o.wave_table.length : K)
      ∧ ((∀ g ∈ fs, 0 ≤ g) → 0 ≤ o.index → 0 ≤ o'.index)
      ∧ ((∀ g ∈ fs, 0 ≤ g) → 0 ≤ o.index → (∀ x ∈ o.wave_table, |x| ≤ 1) →
          ∀ s ∈ out, |s| ≤ 0.3) := by
  induction fs generalizing o with
  | nil =>
    exact ⟨[], o, rfl, rfl, rfl, hlow, hup, fun _ h => h,
      fun _ _ _ s hs => absurd hs (List.not_mem_nil s)⟩
  | cons f fs ih =>
    obtain ⟨s, o1, hstep, hsr1, htb1, hfr1, hlow1, hup1, hnn1, habs1⟩ :=
      get_sample_step (set_frequency f o) hlen hlow hup
    have htb1' : o1.wave_table = o.wave_table := htb1
    have hsr1' : o1.sample_rate = o.sample_rate := hsr1
    have hlow1' : -(o.wave_table.length : K) < o1.index := hlow1
    have hup1' : o1.index < (o.wave_table.length : K) := hup1
    have hnn1' : 0 ≤ o.index → 0 ≤ f → 0 ≤ o1.index := hnn1
    have habs1' : 0 ≤ o.index → (∀ x ∈ o.wave_table, |x| ≤ 1) → |s| ≤ 0.3 := habs1
    obtain ⟨out, o2, hrun, htb2, hsr2, hlow2, hup2, hnn2, habs2⟩ := by
      have hl1 : 0 < o1.wave_table.length := by rw [htb1']; exact hlen
      have hl2 : -(o1.wave_table.length : K) < o1.index := by rw [htb1']; exact hlow1'
      have hl3 : o1.index < (o1.wave_table.length : K) := by rw [htb1']; exact hup1'
      exact ih o1 hl1 hl2 hl3
    have htb2' : o2.wave_table = o.wave_table := by rw [htb2, htb1']
    have hlow2' : -(o.wave_table.length : K) < o2.index := by rw [← htb1']; exact hlow2
    have hup2' : o2.index < (o.wave_table.length : K) := by rw [← htb1']; exact hup2
    refine ⟨s :: out, o2, ?_, htb2', ?_, hlow2', hup2', ?_, ?_⟩
    · simp only [runSchedule, hstep, hrun]
    · rw [hsr2, hsr1']
    · intro hg hi
      have hf : 0 ≤ f := hg f (List.mem_cons_self f fs)
      have h1 : 0 ≤ o1.index := hnn1' hi hf
      exact hnn2 (fun g hgm => hg g (List.mem_cons_of_mem f hgm)) h1
    · intro hg hi htbl s' hs'
      rcases List.mem_cons.1 hs' with hs1 | hs2
      · subst hs1
        exact habs1' hi htbl
      · have hf : 0 ≤ f := hg f (List.mem_cons_self f fs)
        have h1 : 0 ≤ o1.index := hnn1' hi hf
        have htbl1 : ∀ x ∈ o1.wave_table, |x| ≤ 1 := by rw [htb1']; exact htbl
        exact habs2 (fun g hgm => hg g (List.mem_cons_of_mem f hgm)) h1 htbl1 s' hs2

end RunLemmas

section SilentRun
variable {K : Type} [LinearOrderedField K] [FloorRing K]

theorem runSamples_silent (o : WaveTableOscillator K) (hf : o.frequency = 0) (n : ℕ) :
    (runSamples o n).map (fun p => (p.1, p.2.index))
      = some (List.replicate n 0, o.index) := by
  induction n generalizing o with
  | zero => simp [runSamples]
  | succ n ih =>
    have h0 : o.frequency * (o.wave_table.length : K) / (o.sample_rate : K) = 0 := by
      rw [hf, zero_mul, zero_div]
    have hstep := get_sample_of_zero o h0
    have hfr : (update_frequency o).frequency = 0 := by
      rw [update_frequency_frequency, hf]
    have hrec := ih (update_frequency o) hfr
    cases hrs : runSamples (update_frequency o) n with
    | none => rw [hrs] at hrec; simp at hrec
    | some p =>
      obtain ⟨ss, o2⟩ := p
      rw [hrs] at hrec
      simp only [Option.map_some'] at hrec
      have hinj := Option.some.inj hrec
      have hp1 : ss = List.replicate n 0 := congrArg Prod.fst hinj
      have hp2 : o2.index = o.index := by
        have h := congrArg Prod.snd hinj
        simpa [update_frequency_index] using h
      simp only [runSamples, hstep, hrs, Option.map_some', List.replicate_succ]
      rw [hp1, hp2]

end SilentRun

/-- C1: for an oscillator state with nonzero current frequency, table length
64, positive sample rate and phase in `[0, 64)`, one `get_sample` call
returns `0.3 * (table[i0]*(1 - frac) + table[i1]*frac)` where
`i0 = ⌊phase⌋` (equal to the source's truncation since the phase is
nonnegative), `i1 = (i0 + 1) % 64` and `frac = phase - i0`, all computed
from the phase before the call, and the increment it stores is
`frequency * 64 / sample_rate`, recomputed from the current frequency. -/
theorem claim_C1 {K : Type} [LinearOrderedField K] [FloorRing K]
    (o : WaveTableOscillator K)
    (hlen : o.wave_table.length = 64) (hf : o.frequency ≠ 0)
    (hsr : 0 < o.sample_rate) (h0 : 0 ≤ o.index) (h1 : o.index < 64) :
    (get_sample o).map Prod.fst
      = some (0.3 * (o.wave_table.getD (⌊o.index⌋).toNat 0
            * (1 - (o.index - (((⌊o.index⌋).toNat : ℕ) : K)))
          + o.wave_table.getD (((⌊o.index⌋).toNat + 1) % 64) 0
            * (o.index - (((⌊o.index⌋).toNat : ℕ) : K))))
    ∧ (get_sample o).map (fun p => p.2.index_increment)
      = some (o.frequency * 64 / (o.sample_rate : K)) := by
  have hlen0 : 0 < o.wave_table.length := by omega
  have hlenK : (o.wave_table.length : K) = 64 := by rw [hlen]; norm_num
  have hidx : o.index < (o.wave_table.length : K) := by rw [hlenK]; exact h1
  have hne : o.frequency * (o.wave_table.length : K) / (o.sample_rate : K) ≠ 0 := by
    refine div_ne_zero (mul_ne_zero hf ?_) ?_
    · rw [hlenK]; norm_num
    · exact Nat.cast_ne_zero.2 hsr.ne'
  rw [get_sample_of_ne o hne hlen0 hidx]
  constructor
  · simp only [Option.map_some']
    congr 1
    rw [hlen]
    ring
  · simp only [Option.map_some']
    congr 1
    show o.frequency * (o.wave_table.length : K) / (o.sample_rate : K) = _
    rw [hlenK]

/-- C2: if the shared frequency value is `0.0`, every `get_sample` call
returns exactly `0.0` and leaves the index unchanged, for any number of
consecutive calls while the frequency stays `0.0`. -/
theorem claim_C2 {K : Type} [LinearOrderedField K] [FloorRing K]
    (o : WaveTableOscillator K) (hf : o.frequency = 0) (n : ℕ) :
    (runSamples o n).map (fun p => (p.1, p.2.index))
      = some (List.replicate n 0, o.index) :=
  runSamples_silent o hf n

/-- C2 witness: three silent calls on a freshly built oscillator. -/
theorem claim_C2_witness :
    (runSamples (WaveTableOscillator.new 44100 (List.replicate 64 (0 : ℚ))) 3).map
        (fun p => (p.1, p.2.index))
      = some (List.replicate 3 0, 0) :=
  claim_C2 _ rfl 3

/-- C1 witness: table of 64 zeros, sample rate 64, frequency 64, phase 0. -/
theorem claim_C1_witness :
    (get_sample (⟨64, List.replicate 64 (0 : ℚ), 0, 0, 64⟩ : WaveTableOscillator ℚ)).map
        Prod.fst
      = some (0.3 * ((List.replicate 64 (0 : ℚ)).getD (⌊(0 : ℚ)⌋).toNat 0
            * (1 - ((0 : ℚ) - (((⌊(0 : ℚ)⌋).toNat : ℕ) : ℚ)))
          + (List.replicate 64 (0 : ℚ)).getD (((⌊(0 : ℚ)⌋).toNat + 1) % 64) 0
            * ((0 : ℚ) - (((⌊(0 : ℚ)⌋).toNat : ℕ) : ℚ))))
    ∧ (get_sample (⟨64, List.replicate 64 (0 : ℚ), 0, 0, 64⟩ : WaveTableOscillator ℚ)).map
        (fun p => p.2.index_increment)
      = some ((64 : ℚ) * 64 / ((64 : ℕ) : ℚ)) :=
  claim_C1 _ (by simp) (by norm_num) (by norm_num) le_rfl (by norm_num)

/-- C6: a frequency written through the shared handle is the one the very
next `get_sample` call uses: the call's behaviour does not depend on the
previously stored increment or previously stored frequency, and the
increment it computes is `f * table_length / sample_rate` for the freshly
written `f` — the increment is recomputed inside every call, never cached. -/
theorem claim_C6 {K : Type} [LinearOrderedField K] [FloorRing K]
    (o : WaveTableOscillator K) (f g₀ h₀ : K) :
    get_sample (set_frequency f
        { o with index_increment := g₀, frequency := h₀ })
      = get_sample (set_frequency f o)
    ∧ (update_frequency (set_frequency f o)).index_increment
      = f * (o.wave_table.length : K) / (o.sample_rate : K) :=
  ⟨rfl, rfl⟩

/-- C9: a newly constructed oscillator has shared frequency 0, index 0 and
increment 0, and before any frequency write every `get_sample` call
returns `0.0`. -/
theorem claim_C9 {K : Type} [LinearOrderedField K] [FloorRing K]
    (sr : ℕ) (tbl : List K) :
    (WaveTableOscillator.new sr tbl : WaveTableOscillator K).frequency = 0
    ∧ (WaveTableOscillator.new sr tbl : WaveTableOscillator K).index = 0
    ∧ (WaveTableOscillator.new sr tbl : WaveTableOscillator K).index_increment = 0
    ∧ ∀ n : ℕ, (runSamples (WaveTableOscillator.new sr tbl) n).map Prod.fst
        = some (List.replicate n 0) := by
  refine ⟨rfl, rfl, rfl, fun n => ?_⟩
  have h := runSamples_silent (WaveTableOscillator.new sr tbl) rfl n
  cases hrs : runSamples (WaveTableOscillator.new sr tbl) n with
  | none => rw [hrs] at h; simp at h
  | some p =>
    rw [hrs] at h
    simp only [Option.map_some'] at h ⊢
    exact congrArg some (congrArg Prod.fst (Option.some.inj h))

/-- C10: the fallback frequency for an unmapped key,
`200.0 + (address % 1000) as f32`, lies in `[200, 1200)` for every possible
address value. -/
theorem claim_C10 : ∀ key_addr : ℕ,
    200 ≤ fallback_frequency key_addr ∧ fallback_frequency key_addr < 1200 := by
  intro a
  have h1 : (0 : ℚ) ≤ ((a % 1000 : ℕ) : ℚ) := Nat.cast_nonneg _
  have h2 : ((a % 1000 : ℕ) : ℚ) < 1000 := by
    exact_mod_cast Nat.mod_lt a (by norm_num)
  rw [fallback_frequency]
  norm_num
  linarith

/-- C7: changing the shared frequency never resets the phase.  For any state
`o` (in particular the state after K-1 samples at `f1`) whose next call at
`f1` yields state `o'`, the phase of `o'` is `(o.index + increment f1) % 64`
(the code's wrapping remainder); writing `f2` to the handle and the
increment recomputation at the start of the next call both leave that phase
untouched, and `update_frequency` modifies no field except the increment. -/
theorem claim_C7 {K : Type} [LinearOrderedField K] [FloorRing K]
    (o : WaveTableOscillator K) (f1 f2 s : K) (o' : WaveTableOscillator K)
    (hlen : o.wave_table.length = 64)
    (hinc : f1 * (64 : K) / (o.sample_rate : K) ≠ 0)
    (hstep : get_sample (set_frequency f1 o) = some (s, o')) :
    o'.index = rustRem (o.index + f1 * 64 / (o.sample_rate : K)) 64
    ∧ (set_frequency f2 o').index = o'.index
    ∧ (update_frequency (set_frequency f2 o')).index = o'.index
    ∧ ∀ q : WaveTableOscillator K,
        (update_frequency q).index = q.index
        ∧ (update_frequency q).wave_table = q.wave_table
        ∧ (update_frequency q).sample_rate = q.sample_rate
        ∧ (update_frequency q).frequency = q.frequency := by
  have hlenK : ((set_frequency f1 o).wave_table.length : K) = 64 := by
    rw [set_frequency_wave_table, hlen]
    norm_num
  have hne : (set_frequency f1 o).frequency
      * ((set_frequency f1 o).wave_table.length : K)
      / ((set_frequency f1 o).sample_rate : K) ≠ 0 := by
    rw [set_frequency_frequency, hlenK, set_frequency_sample_rate]
    exact hinc
  refine ⟨?_, rfl, rfl, fun q => ⟨rfl, rfl, rfl, rfl⟩⟩
  simp only [get_sample, update_frequency_index_increment, update_frequency_index,
    update_frequency_wave_table, if_neg hne] at hstep
  cases hl : lerp (update_frequency (set_frequency f1 o)) with
  | none =>
    rw [hl] at hstep
    simp at hstep
  | some v =>
    rw [hl] at hstep
    simp only [Option.some.injEq] at hstep
    have ho : o' = _ := (congrArg Prod.snd hstep).symm
    rw [ho]
    show rustRem ((set_frequency f1 o).index
        + (set_frequency f1 o).frequency * ((set_frequency f1 o).wave_table.length : K)
          / ((set_frequency f1 o).sample_rate : K))
        ((set_frequency f1 o).wave_table.length : K) = _
    rw [set_frequency_index, set_frequency_frequency, hlenK, set_frequency_sample_rate]

section NewRun
variable {K : Type} [LinearOrderedField K] [FloorRing K]

theorem runSchedule_new (sr : ℕ) (tbl fs : List K) (hlen : tbl.length = 64) :
    ∃ out o', runSchedule (WaveTableOscillator.new sr tbl) fs = some (out, o')
      ∧ ((∀ g ∈ fs, 0 ≤ g) → 0 ≤ o'.index ∧ o'.index < 64)
      ∧ ((∀ g ∈ fs, 0 ≤ g) → (∀ x ∈ tbl, |x| ≤ 1) → ∀ s ∈ out, |s| ≤ 0.3) := by
  have hlen0 : 0 < (WaveTableOscillator.new sr tbl :
      WaveTableOscillator K).wave_table.length := by
    show 0 < tbl.length
    omega
  have hlenK : (((WaveTableOscillator.new sr tbl :
      WaveTableOscillator K).wave_table.length : ℕ) : K) = 64 := by
    show ((tbl.length : ℕ) : K) = 64
    rw [hlen]
    norm_num
  have hlow : -(((WaveTableOscillator.new sr tbl :
        WaveTableOscillator K).wave_table.length : ℕ) : K)
      < (WaveTableOscillator.new sr tbl : WaveTableOscillator K).index := by
    rw [hlenK]
    show -(64 : K) < 0
    norm_num
  have hup : (WaveTableOscillator.new sr tbl : WaveTableOscillator K).index
      < (((WaveTableOscillator.new sr tbl :
        WaveTableOscillator K).wave_table.length : ℕ) : K) := by
    rw [hlenK]
    show (0 : K) < 64
    norm_num
  obtain ⟨out, o', hrun, htb, hsr, hlow', hup', hnn, habs⟩ :=
    runSchedule_inv fs (WaveTableOscillator.new sr tbl) hlen0 hlow hup
  refine ⟨out, o', hrun, fun hg => ⟨hnn hg le_rfl, ?_⟩, fun hg htbl => ?_⟩
  · rw [hlenK] at hup'
    exact hup'
  · exact habs hg le_rfl htbl

end NewRun

/-- C3 (amended): for every sequence of nonnegative frequency values
written to the shared handle, the oscillator's phase lies in `[0, 64)`
after every `get_sample` call (every call is the last call of some
schedule, so quantifying over all schedules covers every call).  As stated
for arbitrary — in particular negative — frequencies the claim is false:
see the counterexample, where one call at frequency `-441` leaves the
phase at `-16/25`. -/
theorem claim_C3 {K : Type} [LinearOrderedField K] [FloorRing K]
    (sr : ℕ) (tbl fs : List K) (hlen : tbl.length = 64)
    (hfs : ∀ g ∈ fs, 0 ≤ g) :
    ∀ out o', runSchedule (WaveTableOscillator.new sr tbl) fs = some (out, o') →
      0 ≤ o'.index ∧ o'.index < 64 := by
  intro out o' hrun
  obtain ⟨out2, o2, hrun2, hbounds, -⟩ := runSchedule_new sr tbl fs hlen
  rw [hrun] at hrun2
  have h := Option.some.inj hrun2
  have ho : o' = o2 := congrArg Prod.snd h
  rw [ho]
  exact hbounds hfs

/-- C4 (amended): for every state reachable from the initial oscillator
under a schedule of nonnegative frequencies, with a table of 64 entries of
amplitude at most 1, every produced sample has absolute value at most
`0.3`.  As stated for arbitrary frequency sequences the claim is false:
negative frequencies drive the phase negative, where the saturating index
cast makes the interpolation weights leave `[0, 1]` — see the
counterexample. -/
theorem claim_C4 {K : Type} [LinearOrderedField K] [FloorRing K]
    (sr : ℕ) (tbl fs : List K) (hlen : tbl.length = 64)
    (htbl : ∀ x ∈ tbl, |x| ≤ 1) (hfs : ∀ g ∈ fs, 0 ≤ g) :
    ∀ out o', runSchedule (WaveTableOscillator.new sr tbl) fs = some (out, o') →
      ∀ s ∈ out, |s| ≤ 0.3 := by
  intro out o' hrun
  obtain ⟨out2, o2, hrun2, -, habs⟩ := runSchedule_new sr tbl fs hlen
  rw [hrun] at hrun2
  have h := Option.some.inj hrun2
  have ho : out = out2 := congrArg Prod.fst h
  rw [ho]
  exact habs hfs htbl

/-- C8: for every frequency schedule (in the exact-arithmetic model every
representable value, in particular negative and huge ones), every
`get_sample` call from the initial state accesses the 64-entry table only
at in-bounds indices: the run never hits the `none` that models an
out-of-bounds slice-indexing panic. -/
theorem claim_C8 {K : Type} [LinearOrderedField K] [FloorRing K]
    (sr : ℕ) (tbl fs : List K) (hlen : tbl.length = 64) :
    (runSchedule (WaveTableOscillator.new sr tbl) fs).isSome = true := by
  obtain ⟨out, o', hrun, -, -⟩ := runSchedule_new sr tbl fs hlen
  rw [hrun]
  rfl

theorem sineWaveTable_length : sineWaveTable.length = 64 := by
  rw [sineWaveTable, List.length_map, List.length_range, wave_table_size]

theorem sineWaveTable_getD (i : ℕ) (hi : i < 64) :
    sineWaveTable.getD i 0 = Real.sin (2 * Real.pi * (i : ℝ) / 64) := by
  have hmap : sineWaveTable.getD i 0
      = ((List.range wave_table_size).map fun j : ℕ =>
          Real.sin (2 * Real.pi * (j : ℝ) / (wave_table_size : ℝ))).getD i 0 := rfl
  have hi' : i < ((List.range wave_table_size).map fun j : ℕ =>
      Real.sin (2 * Real.pi * (j : ℝ) / (wave_table_size : ℝ))).length := by
    rw [List.length_map, List.length_range]
    exact hi
  rw [hmap, List.getD_eq_getElem?_getD, List.getElem?_eq_getElem hi', Option.getD_some,
    List.getElem_map, List.getElem_range]
  norm_num [wave_table_size]

/-- C5: the generated wave table has length 64 and satisfies
`table[i] = sin(2π·i/64)` for every index; in the exact real-valued model
the spot checks hold exactly: `table[0] = sin 2π = 0`, `table[16] = 1`,
`table[32] = 0` and `table[48] = -1`. -/
theorem claim_C5 :
    sineWaveTable.length = 64
    ∧ (∀ i : Fin 64, sineWaveTable.getD (i : ℕ) 0
        = Real.sin (2 * Real.pi * ((i : ℕ) : ℝ) / 64))
    ∧ sineWaveTable.getD 0 0 = Real.sin (2 * Real.pi)
    ∧ sineWaveTable.getD 16 0 = 1
    ∧ sineWaveTable.getD 32 0 = 0
    ∧ sineWaveTable.getD 48 0 = -1 := by
  refine ⟨sineWaveTable_length, fun i => sineWaveTable_getD i i.2, ?_, ?_, ?_, ?_⟩
  · rw [sineWaveTable_getD 0 (by norm_num)]
    norm_num [Real.sin_two_pi]
  · rw [sineWaveTable_getD 16 (by norm_num)]
    rw [show 2 * Real.pi * ((16 : ℕ) : ℝ) / 64 = Real.pi / 2 by push_cast; ring]
    exact Real.sin_pi_div_two
  · rw [sineWaveTable_getD 32 (by norm_num)]
    rw [show 2 * Real.pi * ((32 : ℕ) : ℝ) / 64 = Real.pi by push_cast; ring]
    exact Real.sin_pi
  · rw [sineWaveTable_getD 48 (by norm_num)]
    rw [show 2 * Real.pi * ((48 : ℕ) : ℝ) / 64 = Real.pi + Real.pi / 2 by push_cast; ring]
    rw [Real.sin_add, Real.sin_pi, Real.cos_pi, Real.sin_pi_div_two, Real.cos_pi_div_two]
    ring

section EvalHelpers
variable {K : Type} [LinearOrderedField K] [FloorRing K]

theorem floor_eq_of {x : K} (n : ℤ) (h1 : (n : K) ≤ x) (h2 : x < (n : K) + 1) :
    ⌊x⌋ = n :=
  Int.floor_eq_iff.2 ⟨h1, h2⟩

theorem ceil_eq_of {x : K} (n : ℤ) (h1 : (n : K) - 1 < x) (h2 : x ≤ (n : K)) :
    ⌈x⌉ = n :=
  Int.ceil_eq_iff.2 ⟨h1, h2⟩

theorem runSchedule_nil (o : WaveTableOscillator K) :
    runSchedule o [] = some ([], o) := rfl

theorem runSchedule_cons_eq (o : WaveTableOscillator K) (f : K) (fs : List K)
    (s : K) (o1 : WaveTableOscillator K)
    (h : get_sample (set_frequency f o) = some (s, o1))
    (out : List K) (o2 : WaveTableOscillator K)
    (h2 : runSchedule o1 fs = some (out, o2)) :
    runSchedule o (f :: fs) = some (s :: out, o2) := by
  simp only [runSchedule, h, h2]

end EvalHelpers

/-- C3 counterexample: from the freshly built oscillator (table length 64,
sample rate 44100), a single `get_sample` call with the shared frequency at
`-441` leaves the phase at `-16/25`, which is not in `[0, 64)`: Rust's `%`
keeps the sign of the dividend, so negative frequencies drive the phase
negative. -/
theorem claim_C3_counterexample :
    ((runSchedule (WaveTableOscillator.new 44100 sineWaveTable) [-441]).map
        fun p => p.2.index)
      = some (-16/25 : ℝ)
    ∧ ¬((0 : ℝ) ≤ -16/25) := by
  have hlenK : ((sineWaveTable.length : ℕ) : ℝ) = 64 := by
    rw [sineWaveTable_length]
    norm_num
  have hlen0 : 0 < sineWaveTable.length := by
    rw [sineWaveTable_length]
    norm_num
  have hne : (-441 : ℝ) * ((sineWaveTable.length : ℕ) : ℝ) / (((44100 : ℕ) : ℕ) : ℝ) ≠ 0 := by
    rw [hlenK]
    norm_num
  have hidx : (0 : ℝ) < ((sineWaveTable.length : ℕ) : ℝ) := by
    rw [hlenK]
    norm_num
  have hstep := get_sample_of_ne
    (set_frequency (-441 : ℝ) (WaveTableOscillator.new 44100 sineWaveTable)) hne hlen0 hidx
  refine ⟨?_, by norm_num⟩
  rw [runSchedule_cons_eq _ _ _ _ _ hstep _ _ (runSchedule_nil _)]
  simp only [Option.map_some']
  congr 1
  show rustRem ((0 : ℝ) + (-441) * ((sineWaveTable.length : ℕ) : ℝ) / (((44100 : ℕ) : ℕ) : ℝ))
      ((sineWaveTable.length : ℕ) : ℝ) = -16/25
  rw [hlenK]
  have hx : (0 : ℝ) + (-441 : ℝ) * 64 / (((44100 : ℕ) : ℕ) : ℝ) = -16/25 := by
    norm_num
  rw [hx, rustRem, rustTrunc, if_neg (by norm_num : ¬ (0 : ℝ) ≤ (-16/25 : ℝ) / 64)]
  rw [ceil_eq_of 0 (by norm_num) (by norm_num)]
  norm_num

theorem sin_pi_div_32_large : (1/16 : ℝ) ≤ Real.sin (Real.pi / 32) := by
  have hpi := Real.pi_pos
  have h1 : (0 : ℝ) ≤ Real.pi / 32 := by linarith
  have h2 : Real.pi / 32 ≤ Real.pi / 2 := by linarith
  have h := Real.mul_le_sin h1 h2
  have heq : 2 / Real.pi * (Real.pi / 32) = 1/16 := by
    field_simp
    ring
  rw [heq] at h
  exact h

/-- C4 counterexample: with the program's sine table and sample rate 44100,
two `get_sample` calls with the shared frequency at `-55125/4` (phase
increment `-20`) produce as second sample `-6·sin(π/32) ≈ -0.588`, whose
absolute value exceeds `0.3`: at negative phase the saturating `as usize`
cast yields interpolation weights `21` and `-20`, far outside `[0, 1]`. -/
theorem claim_C4_counterexample :
    ((runSchedule (WaveTableOscillator.new 44100 sineWaveTable)
        [-55125/4, -55125/4]).map fun p => p.1)
      = some [0, -6 * Real.sin (Real.pi / 32)]
    ∧ ¬(|(-6 : ℝ) * Real.sin (Real.pi / 32)| ≤ 0.3) := by
  have hlenK : ((sineWaveTable.length : ℕ) : ℝ) = 64 := by
    rw [sineWaveTable_length]
    norm_num
  have hlen0 : 0 < sineWaveTable.length := by
    rw [sineWaveTable_length]
    norm_num
  have hne1 : (-55125/4 : ℝ) * ((sineWaveTable.length : ℕ) : ℝ)
      / (((44100 : ℕ) : ℕ) : ℝ) ≠ 0 := by
    rw [hlenK]
    norm_num
  have hidx1 : (0 : ℝ) < ((sineWaveTable.length : ℕ) : ℝ) := by
    rw [hlenK]
    norm_num
  have hidx2 : (-20 : ℝ) < ((sineWaveTable.length : ℕ) : ℝ) := by
    rw [hlenK]
    norm_num
  have hg0 : sineWaveTable.getD 0 0 = 0 := by
    rw [sineWaveTable_getD 0 (by norm_num)]
    norm_num
  have hg1 : sineWaveTable.getD 1 0 = Real.sin (Real.pi / 32) := by
    rw [sineWaveTable_getD 1 (by norm_num)]
    rw [show 2 * Real.pi * ((1 : ℕ) : ℝ) / 64 = Real.pi / 32 by push_cast; ring]
  have hfloor0 : (⌊(0 : ℝ)⌋).toNat = 0 := by
    rw [Int.floor_zero]
    rfl
  have hmod1 : (0 + 1) % sineWaveTable.length = 1 := by
    rw [sineWaveTable_length]
  have hstep1 : get_sample (set_frequency (-55125/4 : ℝ)
        (WaveTableOscillator.new 44100 sineWaveTable))
      = some (0, ⟨44100, sineWaveTable, -20, -20, -55125/4⟩) := by
    rw [get_sample_of_ne _ hne1 hlen0 hidx1]
    rw [Option.some.injEq, Prod.mk.injEq]
    refine ⟨?_, ?_⟩
    · show ((1 - ((0 : ℝ) - (((⌊(0 : ℝ)⌋).toNat : ℕ) : ℝ)))
          * sineWaveTable.getD (⌊(0 : ℝ)⌋).toNat 0
        + ((0 : ℝ) - (((⌊(0 : ℝ)⌋).toNat : ℕ) : ℝ))
          * sineWaveTable.getD (((⌊(0 : ℝ)⌋).toNat + 1) % sineWaveTable.length) 0)
          * 0.3 = 0
      rw [hfloor0, hg0, hmod1, hg1]
      norm_num
    · rw [WaveTableOscillator.mk.injEq]
      refine ⟨rfl, rfl, ?_, ?_, rfl⟩
      · show rustRem ((0 : ℝ) + (-55125/4 : ℝ) * ((sineWaveTable.length : ℕ) : ℝ)
            / (((44100 : ℕ) : ℕ) : ℝ)) ((sineWaveTable.length : ℕ) : ℝ) = -20
        rw [hlenK]
        rw [show (0 : ℝ) + (-55125/4 : ℝ) * 64 / (((44100 : ℕ) : ℕ) : ℝ) = -20 by norm_num]
        rw [rustRem, rustTrunc, if_neg (by norm_num : ¬ (0 : ℝ) ≤ (-20 : ℝ) / 64)]
        rw [ceil_eq_of 0 (by norm_num) (by norm_num)]
        norm_num
      · show (-55125/4 : ℝ) * ((sineWaveTable.length : ℕ) : ℝ)
            / (((44100 : ℕ) : ℕ) : ℝ) = -20
        rw [hlenK]
        norm_num
  have hfl20 : (⌊(-20 : ℝ)⌋).toNat = 0 := by
    rw [floor_eq_of (-20) (by norm_num) (by norm_num)]
    rfl
  have hstep2 := get_sample_of_ne
    (set_frequency (-55125/4 : ℝ)
      (⟨44100, sineWaveTable, -20, -20, -55125/4⟩ : WaveTableOscillator ℝ))
    hne1 hlen0 hidx2
  refine ⟨?_, ?_⟩
  · rw [runSchedule_cons_eq _ _ _ _ _ hstep1 _ _
      (runSchedule_cons_eq _ _ _ _ _ hstep2 _ _ (runSchedule_nil _))]
    simp only [Option.map_some']
    congr 1
    rw [List.cons.injEq, List.cons.injEq]
    refine ⟨rfl, ?_, rfl⟩
    show ((1 - ((-20 : ℝ) - (((⌊(-20 : ℝ)⌋).toNat : ℕ) : ℝ)))
          * sineWaveTable.getD (⌊(-20 : ℝ)⌋).toNat 0
        + ((-20 : ℝ) - (((⌊(-20 : ℝ)⌋).toNat : ℕ) : ℝ))
          * sineWaveTable.getD (((⌊(-20 : ℝ)⌋).toNat + 1) % sineWaveTable.length) 0)
          * 0.3 = -6 * Real.sin (Real.pi / 32)
    rw [hfl20, hg0, hmod1, hg1]
    push_cast
    ring
  · intro habs
    have hs := sin_pi_div_32_large
    have hnn : (0 : ℝ) ≤ Real.sin (Real.pi / 32) := by linarith
    rw [abs_mul, abs_of_nonneg hnn, show |(-6 : ℝ)| = 6 by norm_num] at habs
    nlinarith

theorem runSchedule_zero_step :
    runSchedule (WaveTableOscillator.new 1 (List.replicate 64 (0 : ℚ))) [0]
      = some ([0], ⟨1, List.replicate 64 (0 : ℚ), 0, 0, 0⟩) := by
  have hz := get_sample_of_zero
    (set_frequency (0 : ℚ) (WaveTableOscillator.new 1 (List.replicate 64 (0 : ℚ))))
    (by
      show (0 : ℚ) * (((List.replicate 64 (0 : ℚ)).length : ℕ) : ℚ) / (((1 : ℕ) : ℕ) : ℚ) = 0
      rw [zero_mul, zero_div])
  have hst : update_frequency
      (set_frequency (0 : ℚ) (WaveTableOscillator.new 1 (List.replicate 64 (0 : ℚ))))
      = ⟨1, List.replicate 64 (0 : ℚ), 0, 0, 0⟩ := by
    simp [update_frequency, set_frequency, WaveTableOscillator.new]
  rw [hst] at hz
  exact runSchedule_cons_eq _ _ _ _ _ hz _ _ (runSchedule_nil _)

/-- C3 witness: the nonnegative schedule `[0]` from the fresh oscillator. -/
theorem claim_C3_witness :
    0 ≤ (⟨1, List.replicate 64 (0 : ℚ), 0, 0, 0⟩ : WaveTableOscillator ℚ).index
    ∧ (⟨1, List.replicate 64 (0 : ℚ), 0, 0, 0⟩ : WaveTableOscillator ℚ).index < 64 :=
  claim_C3 1 (List.replicate 64 (0 : ℚ)) [0] (by simp) (by simp) [0] _
    runSchedule_zero_step

/-- C4 witness: the sample produced by the schedule `[0]` is bounded. -/
theorem claim_C4_witness : |(0 : ℚ)| ≤ 0.3 :=
  claim_C4 1 (List.replicate 64 (0 : ℚ)) [0] (by simp)
    (by
      intro x hx
      rw [List.eq_of_mem_replicate hx]
      norm_num)
    (by simp) [0] _ runSchedule_zero_step 0 (by simp)

/-- C8 witness: a negative-frequency schedule still runs without the
out-of-bounds `none`. -/
theorem claim_C8_witness :
    (runSchedule (WaveTableOscillator.new 1 (List.replicate 64 (0 : ℚ))) [-1]).isSome
      = true :=
  claim_C8 1 (List.replicate 64 (0 : ℚ)) [-1] (by simp)

/-- C7 witness: one sample at frequency 64 with sample rate 64 from the
fresh oscillator, then a switch to frequency 441. -/
theorem claim_C7_witness :
    (⟨64, List.replicate 64 (0 : ℚ), 0, 64, 64⟩ : WaveTableOscillator ℚ).index
      = rustRem ((WaveTableOscillator.new 64 (List.replicate 64 (0 : ℚ))).index
          + (64 : ℚ) * 64 / (((64 : ℕ) : ℕ) : ℚ)) 64
    ∧ (set_frequency (441 : ℚ)
        (⟨64, List.replicate 64 (0 : ℚ), 0, 64, 64⟩ : WaveTableOscillator ℚ)).index
      = (⟨64, List.replicate 64 (0 : ℚ), 0, 64, 64⟩ : WaveTableOscillator ℚ).index := by
  have hlenrK : (((List.replicate 64 (0 : ℚ)).length : ℕ) : ℚ) = 64 := by
    rw [List.length_replicate]
    norm_num
  have hne : (64 : ℚ) * (((List.replicate 64 (0 : ℚ)).length : ℕ) : ℚ)
      / (((64 : ℕ) : ℕ) : ℚ) ≠ 0 := by
    rw [hlenrK]
    norm_num
  have hlen0 : 0 < (List.replicate 64 (0 : ℚ)).length := by simp
  have hidx : (0 : ℚ) < (((List.replicate 64 (0 : ℚ)).length : ℕ) : ℚ) := by
    rw [hlenrK]
    norm_num
  have hfq0 : (⌊(0 : ℚ)⌋).toNat = 0 := by
    rw [Int.floor_zero]
    rfl
  have hgD : ∀ i : ℕ, i < 64 → (List.replicate 64 (0 : ℚ)).getD i 0 = 0 := by
    intro i hi
    rw [List.getD_eq_getElem?_getD, List.getElem?_replicate, if_pos hi]
    rfl
  have hmod : (0 + 1) % (List.replicate 64 (0 : ℚ)).length = 1 := by
    rw [List.length_replicate]
  have hstep : get_sample (set_frequency (64 : ℚ)
        (WaveTableOscillator.new 64 (List.replicate 64 (0 : ℚ))))
      = some (0, ⟨64, List.replicate 64 (0 : ℚ), 0, 64, 64⟩) := by
    rw [get_sample_of_ne _ hne hlen0 hidx]
    rw [Option.some.injEq, Prod.mk.injEq]
    refine ⟨?_, ?_⟩
    · show ((1 - ((0 : ℚ) - (((⌊(0 : ℚ)⌋).toNat : ℕ) : ℚ)))
          * (List.replicate 64 (0 : ℚ)).getD (⌊(0 : ℚ)⌋).toNat 0
        + ((0 : ℚ) - (((⌊(0 : ℚ)⌋).toNat : ℕ) : ℚ))
          * (List.replicate 64 (0 : ℚ)).getD
              (((⌊(0 : ℚ)⌋).toNat + 1) % (List.replicate 64 (0 : ℚ)).length) 0)
          * 0.3 = 0
      rw [hfq0, hgD 0 (by norm_num), hmod, hgD 1 (by norm_num)]
      norm_num
    · rw [WaveTableOscillator.mk.injEq]
      refine ⟨rfl, rfl, ?_, ?_, rfl⟩
      · show rustRem ((0 : ℚ) + (64 : ℚ) * (((List.replicate 64 (0 : ℚ)).length : ℕ) : ℚ)
            / (((64 : ℕ) : ℕ) : ℚ)) (((List.replicate 64 (0 : ℚ)).length : ℕ) : ℚ) = 0
        rw [hlenrK]
        rw [show (0 : ℚ) + (64 : ℚ) * 64 / (((64 : ℕ) : ℕ) : ℚ) = 64 by norm_num]
        rw [rustRem, rustTrunc, if_pos (by norm_num : (0 : ℚ) ≤ (64 : ℚ) / 64)]
        rw [show (64 : ℚ) / 64 = 1 by norm_num, Int.floor_one]
        norm_num
      · show (64 : ℚ) * (((List.replicate 64 (0 : ℚ)).length : ℕ) : ℚ)
            / (((64 : ℕ) : ℕ) : ℚ) = 64
        rw [hlenrK]
        norm_num
  have h := claim_C7 (WaveTableOscillator.new 64 (List.replicate 64 (0 : ℚ)))
    64 441 0 (⟨64, List.replicate 64 (0 : ℚ), 0, 64, 64⟩ : WaveTableOscillator ℚ)
    (by show (List.replicate 64 (0 : ℚ)).length = 64; simp)
    (by show (64 : ℚ) * 64 / (((64 : ℕ) : ℕ) : ℚ) ≠ 0; norm_num)
    hstep
  exact ⟨h.1, h.2.1⟩
